import Mathlib

/-!
Verification development for the `invest-ML` notebook `01_Framework.ipynb`.

The notebook builds, from a multi-symbol price table indexed by the
composite (date, symbol) key, a `features` frame (columns computed with
`groupby(level='symbol')` backward shifts), an `outcomes` frame (columns
computed with forward shifts), joins one outcome column onto the features
to obtain a training pair, and wraps model predictions in a series carrying
the feature matrix's index.

The embedding below works over `Rat`; a pandas float division with zero
denominator (which yields `NaN` or `±inf`) is modelled as a missing value,
and the theorems that depend on division are stated for strictly positive
prices and volumes, where a zero denominator cannot arise.
-/

namespace InvestML

/-- Calendar date as carried by the price index: `t` is a linear day
ordinal used for ordering, while `weekday` and `day` record the attributes
`.weekday` and `.day` that pandas exposes on the date level of the index. -/
structure Date where
  t : Nat
  weekday : Nat
  day : Nat
deriving DecidableEq, Repr

/-- A row of the `prices` table: composite (date, symbol) index plus the
five adjusted OHLCV columns, renamed to lowercase as in `get_symbols`. -/
structure PriceRow where
  date : Date
  symbol : String
  «open» : Rat
  high : Rat
  low : Rat
  close : Rat
  volume : Rat
deriving DecidableEq, Repr

/-- Placeholder date used as the `getD` default. -/
def dfltDate : Date := ⟨0, 0, 0⟩

/-- Placeholder price row used as the `getD` default. -/
def dfltRow : PriceRow := ⟨dfltDate, "", 0, 0, 0, 0, 0⟩

/-- Division of price data: pandas produces non-finite floats on a zero
denominator; over `Rat` the embedding models that case as missing. -/
def divNa (a b : Rat) : Option Rat := if b = 0 then none else some (a / b)

/-- Missing-value propagating division of two optional values (series
division in pandas: a missing operand yields a missing result). -/
def optDiv : Option Rat → Option Rat → Option Rat
  | some a, some b => divNa a b
  | _, _ => none

/-- The rows of one symbol, in table order: the list that pandas
`groupby(level='symbol')` operates on for that symbol. -/
def grp (P : List PriceRow) (s : String) : List PriceRow :=
  P.filter (fun r => decide (r.symbol = s))

/-- In-group position of the row at absolute index `i`: the number of
earlier rows carrying the same symbol. -/
def gpos (P : List PriceRow) (i : Nat) : Nat :=
  (P.take i).countP (fun r => decide (r.symbol = (P.getD i dfltRow).symbol))

/-- groupby `shift(k)` (backward, `k ≥ 0`) read at in-group position `p`:
the row `k` places earlier in the same symbol's group, missing when fewer
than `k` rows precede. -/
def shiftB (g : List PriceRow) (p k : Nat) : Option PriceRow :=
  if k ≤ p then some (g.getD (p - k) dfltRow) else none

/-- groupby `shift(-k)` (forward): the row `k` places later in the group,
missing when the group ends before it. -/
def shiftF (g : List PriceRow) (p k : Nat) : Option PriceRow :=
  g[p + k]?

/-- groupby `diff(1)` of the column selected by `f`. -/
def diff1 (f : PriceRow → Rat) (g : List PriceRow) (p : Nat) : Option Rat :=
  (shiftB g p 1).map (fun r1 => f (g.getD p dfltRow) - f r1)

/-- groupby `pct_change(k)` for `k > 0`: `x_p / x_(p-k) - 1`. -/
def pctChange (f : PriceRow → Rat) (g : List PriceRow) (p k : Nat) : Option Rat :=
  (shiftB g p k).bind (fun rk => divNa (f (g.getD p dfltRow) - f rk) (f rk))

/-- groupby `pct_change(-k)`: `x_p / x_(p+k) - 1`, missing when no row `k`
periods ahead exists in the group. -/
def pctChangeF (f : PriceRow → Rat) (g : List PriceRow) (p k : Nat) : Option Rat :=
  (shiftF g p k).bind (fun rk => divNa (f (g.getD p dfltRow) - f rk) (f rk))

/-- A row of the `features` frame: the (date, symbol) index inherited from
`prices.index` and the five feature columns of the notebook.  The calendar
columns are integers in pandas and can never be missing, hence are not
optional. -/
structure FeatureRow where
  date : Date
  symbol : String
  volume_change_ratio : Option Rat
  momentum_5_day : Option Rat
  intraday_chg : Option Rat
  day_of_week : Nat
  day_of_month : Nat
deriving DecidableEq, Repr

/-- Column values of a features row, as a function of the index row `r`,
the row's symbol group `g`, and the in-group position `p`:
`volume_change_ratio = groupby.volume.diff(1) / groupby.shift(1).volume`,
`momentum_5_day = groupby.close.pct_change(5)`,
`intraday_chg = (close.shift(0) - open.shift(0)) / open.shift(0)`,
`day_of_week`/`day_of_month` from the row's own date. -/
def featCore (r : PriceRow) (g : List PriceRow) (p : Nat) : FeatureRow :=
  { date := r.date
    symbol := r.symbol
    volume_change_ratio :=
      optDiv (diff1 (fun x => x.volume) g p) ((shiftB g p 1).map (fun x => x.volume))
    momentum_5_day := pctChange (fun x => x.close) g p 5
    intraday_chg :=
      divNa ((g.getD p dfltRow).close - (g.getD p dfltRow).«open») ((g.getD p dfltRow).«open»)
    day_of_week := r.date.weekday
    day_of_month := r.date.day }

/-- The features-frame row built for the price row at absolute index `i`:
the groupby columns are evaluated on the row's symbol group at the row's
in-group position. -/
def featRowAt (P : List PriceRow) (i : Nat) : FeatureRow :=
  featCore (P.getD i dfltRow) (grp P (P.getD i dfltRow).symbol) (gpos P i)

/-- The features frame before `dropna`: one row per price row, in index
order (`features = pd.DataFrame(index=prices.index)` plus the five column
assignments). -/
def featuresRaw (P : List PriceRow) : List FeatureRow :=
  (List.range P.length).map (featRowAt P)

/-- A features row is complete when none of its three derived columns is
missing (the two calendar columns are never missing). -/
def completeF (f : FeatureRow) : Bool :=
  f.volume_change_ratio.isSome && f.momentum_5_day.isSome && f.intraday_chg.isSome

/-- The published features frame: `features.dropna(inplace=True)` keeps
exactly the complete rows. -/
def features (P : List PriceRow) : List FeatureRow :=
  (featuresRaw P).filter completeF

/-- A row of the `outcomes` frame: the (date, symbol) index inherited from
`prices.index` and the three forward-looking columns. -/
structure OutcomeRow where
  date : Date
  symbol : String
  open_1 : Option Rat
  close_1 : Option Rat
  close_5 : Option Rat
deriving DecidableEq, Repr

/-- Placeholder outcome row used as the `getD` default. -/
def dfltOut : OutcomeRow := ⟨dfltDate, "", none, none, none⟩

/-- Column values of an outcomes row, as a function of the index row `r`,
the row's symbol group `g`, and the in-group position `p`:
`open_1 = groupby.open.shift(-1) / groupby.close.shift(0) - 1`,
`close_1 = groupby.close.pct_change(-1)`,
`close_5 = groupby.close.pct_change(-5)`. -/
def outCore (r : PriceRow) (g : List PriceRow) (p : Nat) : OutcomeRow :=
  { date := r.date
    symbol := r.symbol
    open_1 :=
      ((shiftF g p 1).bind (fun r1 => divNa r1.«open» (g.getD p dfltRow).close)).map
        (fun q => q - 1)
    close_1 := pctChangeF (fun x => x.close) g p 1
    close_5 := pctChangeF (fun x => x.close) g p 5 }

/-- The outcomes-frame row for the price row at absolute index `i`. -/
def outRowAt (P : List PriceRow) (i : Nat) : OutcomeRow :=
  outCore (P.getD i dfltRow) (grp P (P.getD i dfltRow).symbol) (gpos P i)

/-- The outcomes frame: one row per price row, in index order; the notebook
deliberately performs no `dropna` here. -/
def outcomes (P : List PriceRow) : List OutcomeRow :=
  (List.range P.length).map (outRowAt P)

/-! ### Training pair construction (cells 8 and 12) -/

/-- An entry of the outcome series `y` chosen for training: the composite
key and the (possibly missing) outcome value. -/
structure YEntry where
  date : Date
  symbol : String
  val : Option Rat
deriving DecidableEq, Repr

/-- The single outcome column `y = outcomes.close_1` as an indexed series. -/
def ycolClose1 (P : List PriceRow) : List YEntry :=
  (outcomes P).map (fun o => ⟨o.date, o.symbol, o.close_1⟩)

/-- The single outcome column `y = outcomes.open_1` as an indexed series. -/
def ycolOpen1 (P : List PriceRow) : List YEntry :=
  (outcomes P).map (fun o => ⟨o.date, o.symbol, o.open_1⟩)

/-- A row of the joined frame `Xy`: the feature columns together with the
attached outcome column (missing where the left join found no value). -/
structure XyRow where
  x : FeatureRow
  yval : Option Rat
deriving DecidableEq, Repr

/-- The `y` entries matching a feature row's composite (date, symbol) key. -/
def yMatches (y : List YEntry) (f : FeatureRow) : List YEntry :=
  y.filter (fun e => decide (e.date = f.date ∧ e.symbol = f.symbol))

/-- `X.join(y)`: pandas' default left join on the index.  Every row of `X`
is kept in order; a row whose key has no match in `y` carries a missing
value, and duplicate key matches replicate the row. -/
def joinLeft (X : List FeatureRow) (y : List YEntry) : List XyRow :=
  X.flatMap (fun f =>
    if (yMatches y f).isEmpty then [⟨f, none⟩]
    else (yMatches y f).map (fun e => ⟨f, e.val⟩))

/-- Modelled from the spec: the reference inner join of the features table
and one outcome column on the shared composite (date, symbol) key. -/
def joinInnerSpec (X : List FeatureRow) (y : List YEntry) : List XyRow :=
  X.flatMap (fun f => (yMatches y f).map (fun e => ⟨f, e.val⟩))

/-- `dropna()` over the joined frame: keep the rows in which every feature
column and the outcome column are present. -/
def dropnaXy (l : List XyRow) : List XyRow :=
  l.filter (fun r => completeF r.x && r.yval.isSome)

/-- The code's training pair: `Xy = X.join(y).dropna()`, then split back
into the feature matrix `X = Xy[X.columns]` and the target `y = Xy[y.name]`. -/
def trainPair (X : List FeatureRow) (y : List YEntry) :
    List FeatureRow × List (Option Rat) :=
  (( dropnaXy (joinLeft X y)).map (fun r => r.x),
    (dropnaXy (joinLeft X y)).map (fun r => r.yval))

/-! ### Data retrieval (`get_symbols`) -/

/-- A raw row as returned by the external market-data reader after column
selection and renaming: the date index plus adjusted OHLCV values. -/
structure RawRow where
  date : Date
  «open» : Rat
  high : Rat
  low : Rat
  close : Rat
  volume : Rat
deriving DecidableEq, Repr

/-- Tagging a fetched raw row with its symbol and setting the composite
(date, symbol) index: `df['symbol'] = symbol` then `set_index`. -/
def toPriceRow (s : String) (r : RawRow) : PriceRow :=
  ⟨r.date, s, r.«open», r.high, r.low, r.close, r.volume⟩

/-- Lexicographic comparison of the composite (date, symbol) index. -/
def keyLe (a b : PriceRow) : Bool :=
  decide (a.date.t < b.date.t) ||
    (decide (a.date.t = b.date.t) && decide (a.symbol ≤ b.symbol))

/-- Insertion into a key-sorted list (used to model `sort_index()`). -/
def insertRow (r : PriceRow) : List PriceRow → List PriceRow
  | [] => [r]
  | x :: xs => if keyLe r x then r :: x :: xs else x :: insertRow r xs

/-- `sort_index()`: sort the price table by the composite index. -/
def sortIndex : List PriceRow → List PriceRow
  | [] => []
  | x :: xs => insertRow x (sortIndex xs)

/-- `get_symbols`: fetch each symbol's adjusted OHLCV rows from the data
source, tag them with their symbol, stack them below the rows collected so
far (`out = pd.concat([out, df], axis=0)`), and sort the result by the
composite index.  The external reader `web.DataReader` is a parameter. -/
def get_symbols (web : String → String → Option Date → Option Date → List RawRow)
    (symbols : List String) (data_source : String)
    (begin_date end_date : Option Date) : List PriceRow :=
  sortIndex
    (symbols.foldl
      (fun out symbol =>
        out ++ (web symbol data_source begin_date end_date).map (toPriceRow symbol))
      [])

/-! ### Prediction (cell 15) and notebook state -/

/-- `pd.Series(model.predict(X), index=X.index)`: wrapping the model's
prediction vector with the feature matrix's composite index.  pandas raises
when the lengths differ; that error is modelled as `none`. -/
def predSeries (predict : List FeatureRow → List Rat) (X : List FeatureRow) :
    Option (List ((Date × String) × Rat)) :=
  if (predict X).length = X.length then
    some ((X.map (fun f => (f.date, f.symbol))).zip (predict X))
  else none

/-- The notebook's in-memory state across the derivation cells: the raw
price table and the two derived tables. -/
structure NotebookState where
  prices : List PriceRow
  features : List FeatureRow
  outcomes : List OutcomeRow
deriving DecidableEq, Repr

/-- Cell 4: `features = pd.DataFrame(index=prices.index)` followed by the
five column assignments and `dropna` rebuilds the features table from
`prices` alone. -/
def runFeaturesCell (st : NotebookState) : NotebookState :=
  { st with features := features st.prices }

/-- Cell 6: `outcomes = pd.DataFrame(index=prices.index)` followed by the
three column assignments rebuilds the outcomes table from `prices` alone. -/
def runOutcomesCell (st : NotebookState) : NotebookState :=
  { st with outcomes := outcomes st.prices }

/-! ### Sortedness, causal cuts, and concrete tables -/

/-- Datewise sortedness within each symbol: rows of equal symbol appear with
nondecreasing dates.  The price table produced by `get_symbols` satisfies
this because of its final `sort_index()`. -/
def SortedSym (P : List PriceRow) : Prop :=
  P.Pairwise (fun a b => a.symbol = b.symbol → a.date.t ≤ b.date.t)

instance (P : List PriceRow) : Decidable (SortedSym P) :=
  List.instDecidablePairwise _

/-- The price rows causally admissible for the features of the row at
absolute index `i`: same symbol, date at or before that row's date. -/
def causalCut (P : List PriceRow) (i : Nat) : List PriceRow :=
  P.filter (fun r =>
    decide (r.symbol = (P.getD i dfltRow).symbol) &&
      decide (r.date.t ≤ (P.getD i dfltRow).date.t))

/-- Position of the row at absolute index `i` within its causal cut. -/
def cpos (P : List PriceRow) (i : Nat) : Nat :=
  (P.take i).countP (fun r =>
    decide (r.symbol = (P.getD i dfltRow).symbol) &&
      decide (r.date.t ≤ (P.getD i dfltRow).date.t))

/-- The price rows of the same symbol dated at or after the row at absolute
index `i`. -/
def futureCut (P : List PriceRow) (i : Nat) : List PriceRow :=
  P.filter (fun r =>
    decide (r.symbol = (P.getD i dfltRow).symbol) &&
      decide ((P.getD i dfltRow).date.t ≤ r.date.t))

/-- Position of the row at absolute index `i` within its future cut. -/
def fpos (P : List PriceRow) (i : Nat) : Nat :=
  (P.take i).countP (fun r =>
    decide (r.symbol = (P.getD i dfltRow).symbol) &&
      decide ((P.getD i dfltRow).date.t ≤ r.date.t))

/-- Placeholder features row used as the `getD` default. -/
def dfltFeat : FeatureRow := ⟨dfltDate, "", none, none, none, 0, 0⟩

/-- Sample price row used in concrete instantiations: date ordinal `t`,
symbol `s`, and open/close/volume values (high and low are derived). -/
def sampleRow (t : Nat) (s : String) (o c v : Rat) : PriceRow :=
  ⟨⟨t, t % 7, t + 1⟩, s, o, o + 1, o - 1, c, v⟩

/-- A seven-session single-symbol price table used as a concrete instance. -/
def Pw : List PriceRow :=
  [sampleRow 0 "A" 10 11 100, sampleRow 1 "A" 11 12 110, sampleRow 2 "A" 12 13 120,
   sampleRow 3 "A" 13 14 130, sampleRow 4 "A" 14 15 140, sampleRow 5 "A" 15 16 150,
   sampleRow 6 "A" 16 17 160]

/-- Two-session price table; `Pc'` below changes only the close of its
first (date 0) row. -/
def Pc : List PriceRow := [sampleRow 0 "A" 10 10 100, sampleRow 1 "A" 12 12 110]

/-- `Pc` with the date-0 close changed from 10 to 5; every row dated
strictly after 0 is identical to the corresponding row of `Pc`. -/
def Pc' : List PriceRow := [sampleRow 0 "A" 10 5 100, sampleRow 1 "A" 12 12 110]

/-- Interleaved two-symbol table used in concrete instantiations. -/
def P2w : List PriceRow :=
  [sampleRow 0 "A" 10 11 100, sampleRow 0 "B" 20 21 200, sampleRow 1 "A" 11 12 110,
   sampleRow 1 "B" 21 22 210, sampleRow 2 "A" 12 13 120, sampleRow 2 "B" 22 23 220]

/-- `P2w` with symbol B's rows altered and one of them removed; the
symbol-A rows are unchanged. -/
def Q2w : List PriceRow :=
  [sampleRow 0 "A" 10 11 100, sampleRow 0 "B" 30 31 300, sampleRow 1 "A" 11 12 110,
   sampleRow 2 "A" 12 13 120, sampleRow 2 "B" 32 33 320]

/-! ### Generic list lemmas for the index bookkeeping -/

theorem take_filter_eq {α : Type} (q : α → Bool) (l : List α) (i : Nat) :
    (l.take i).filter q = (l.filter q).take ((l.take i).countP q) := by
  induction l generalizing i with
  | nil => simp
  | cons x xs ih =>
    cases i with
    | zero => simp
    | succ n =>
      rw [List.take_succ_cons, List.filter_cons, List.countP_cons, List.filter_cons]
      cases hx : q x
      · simpa [hx] using ih n
      · simp [hx, ih n]

theorem countP_take_filter_getD {α : Type} (q : α → Bool) (d : α) (l : List α) :
    ∀ i : Nat, i < l.length → q (l.getD i d) = true →
      (l.take i).countP q < (l.filter q).length ∧
      (l.filter q).getD ((l.take i).countP q) d = l.getD i d := by
  induction l with
  | nil => intro i hi; simp at hi
  | cons x xs ih =>
    intro i hi hq
    cases i with
    | zero =>
      rw [List.getD_cons_zero] at hq
      simp [List.filter_cons, hq]
    | succ n =>
      have hn : n < xs.length := Nat.lt_of_succ_lt_succ hi
      have hq' : q (xs.getD n d) = true := by simpa using hq
      obtain ⟨h1, h2⟩ := ih n hn hq'
      rw [List.take_succ_cons, List.countP_cons, List.filter_cons]
      cases hx : q x
      · simp only [hx, Bool.false_eq_true, if_false, Nat.add_zero, List.getD_cons_succ]
        exact ⟨h1, h2⟩
      · simp only [hx, if_true, List.length_cons, List.getD_cons_succ]
        exact ⟨Nat.succ_lt_succ h1, h2⟩

theorem takeWhile_eq_take_length {α : Type} (c : α → Bool) (l : List α) :
    l.takeWhile c = l.take (l.takeWhile c).length := by
  have h := List.take_left (l.takeWhile c) (l.dropWhile c)
  rw [List.takeWhile_append_dropWhile] at h
  exact h.symm

theorem dropWhile_eq_drop_length {α : Type} (c : α → Bool) (l : List α) :
    l.dropWhile c = l.drop (l.takeWhile c).length := by
  have h := List.drop_left (l.takeWhile c) (l.dropWhile c)
  rw [List.takeWhile_append_dropWhile] at h
  exact h.symm

theorem take_takeWhile_comm {α : Type} (c : α → Bool) (l : List α) (n : Nat) :
    (l.take n).takeWhile c = (l.takeWhile c).take n := by
  induction l generalizing n with
  | nil => simp
  | cons x xs ih =>
    cases n with
    | zero => simp
    | succ m =>
      rw [List.take_succ_cons, List.takeWhile_cons, List.takeWhile_cons]
      cases hx : c x <;> simp [hx, ih m]

theorem sorted_filter_eq_takeWhile {α : Type} {R : α → α → Prop} (c : α → Bool)
    (hmono : ∀ a b, R a b → c b = true → c a = true) (l : List α)
    (hl : l.Pairwise R) : l.filter c = l.takeWhile c := by
  induction l with
  | nil => rfl
  | cons x xs ih =>
    rcases List.pairwise_cons.mp hl with ⟨hx, hxs⟩
    rw [List.filter_cons, List.takeWhile_cons]
    cases hcx : c x
    · have hnil : xs.filter c = [] := List.filter_eq_nil_iff.mpr (fun a ha hca => by
        rw [hmono x a (hx a ha) hca] at hcx
        exact Bool.noConfusion hcx)
      simp [hnil]
    · simp [ih hxs]

theorem sorted_filter_eq_dropWhile {α : Type} {R : α → α → Prop} (c : α → Bool)
    (hmono : ∀ a b, R a b → c a = true → c b = true) (l : List α)
    (hl : l.Pairwise R) : l.filter c = l.dropWhile (fun a => ! c a) := by
  induction l with
  | nil => rfl
  | cons x xs ih =>
    rcases List.pairwise_cons.mp hl with ⟨hx, hxs⟩
    rw [List.filter_cons, List.dropWhile_cons]
    cases hcx : c x
    · simp [hcx, ih hxs]
    · have hself : xs.filter c = xs :=
        List.filter_eq_self.mpr (fun a ha => hmono x a (hx a ha) hcx)
      simp [hcx, hself]

theorem getD_take_of_lt {α : Type} (l : List α) (d : α) {m n : Nat} (h : m < n) :
    (l.take n).getD m d = l.getD m d := by
  rw [List.getD_eq_getElem?_getD, List.getD_eq_getElem?_getD, List.getElem?_take,
    if_pos h]

theorem getD_drop_add {α : Type} (l : List α) (d : α) (n m : Nat) :
    (l.drop n).getD m d = l.getD (n + m) d := by
  rw [List.getD_eq_getElem?_getD, List.getD_eq_getElem?_getD, List.getElem?_drop]

theorem mem_take_imp {α : Type} {l : List α} {n : Nat} {x : α} (h : x ∈ l.take n) :
    x ∈ l :=
  List.Sublist.mem h (List.take_sublist n l)

theorem getD_mem {α : Type} (l : List α) (d : α) {j : Nat} (h : j < l.length) :
    l.getD j d ∈ l := by
  rw [List.getD_eq_getElem l d h]
  exact List.getElem_mem h

theorem countP_take_all {α : Type} (q : α → Bool) (l : List α) (n : Nat)
    (hn : n ≤ l.length) (h : ∀ x ∈ l.take n, q x = true) :
    (l.take n).countP q = n := by
  rw [List.countP_eq_length.mpr h, List.length_take]
  exact Nat.min_eq_left hn

/-! ### Structure of the symbol groups -/

theorem mem_grp_symbol {P : List PriceRow} {s : String} {r : PriceRow}
    (h : r ∈ grp P s) : r.symbol = s :=
  of_decide_eq_true (List.mem_filter.mp h).2

theorem grp_pairwise_dates (P : List PriceRow) (hs : SortedSym P) (s : String) :
    (grp P s).Pairwise (fun a b => a.date.t ≤ b.date.t) := by
  have h1 : (grp P s).Pairwise (fun a b => a.symbol = b.symbol → a.date.t ≤ b.date.t) :=
    hs.sublist (List.filter_sublist P)
  exact h1.imp_of_mem (fun ha hb hr =>
    hr ((mem_grp_symbol ha).trans (mem_grp_symbol hb).symm))

theorem grp_eq_self_of_all (g : List PriceRow) (s : String)
    (hall : ∀ r ∈ g, r.symbol = s) : grp g s = g :=
  List.filter_eq_self.mpr (fun r hr => decide_eq_true (hall r hr))

theorem getD_symbol_of_all {g : List PriceRow} {s : String}
    (hall : ∀ r ∈ g, r.symbol = s) {p : Nat} (hp : p < g.length) :
    (g.getD p dfltRow).symbol = s := by
  rw [List.getD_eq_getElem g dfltRow hp]
  exact hall _ (List.getElem_mem hp)

theorem gpos_of_all {g : List PriceRow} {s : String}
    (hall : ∀ r ∈ g, r.symbol = s) {p : Nat} (hp : p < g.length) :
    gpos g p = p := by
  unfold gpos
  rw [getD_symbol_of_all hall hp]
  exact countP_take_all _ _ _ (le_of_lt hp)
    (fun x hx => decide_eq_true (hall x (mem_take_imp hx)))

/-- Evaluating the features pipeline on an all-one-symbol table reproduces
the core computation at the same position. -/
theorem featRowAt_of_all {g : List PriceRow} {s : String}
    (hall : ∀ r ∈ g, r.symbol = s) {p : Nat} (hp : p < g.length) :
    featRowAt g p = featCore (g.getD p dfltRow) g p := by
  unfold featRowAt
  rw [getD_symbol_of_all hall hp, grp_eq_self_of_all g s hall, gpos_of_all hall hp]

/-- Evaluating the outcomes pipeline on an all-one-symbol table reproduces
the core computation at the same position. -/
theorem outRowAt_of_all {g : List PriceRow} {s : String}
    (hall : ∀ r ∈ g, r.symbol = s) {p : Nat} (hp : p < g.length) :
    outRowAt g p = outCore (g.getD p dfltRow) g p := by
  unfold outRowAt
  rw [getD_symbol_of_all hall hp, grp_eq_self_of_all g s hall, gpos_of_all hall hp]

/-- The row at absolute index `i` sits at position `gpos P i` of its symbol
group, and that position is inside the group. -/
theorem grp_getD_gpos (P : List PriceRow) (i : Nat) (hi : i < P.length) :
    gpos P i < (grp P (P.getD i dfltRow).symbol).length ∧
      (grp P (P.getD i dfltRow).symbol).getD (gpos P i) dfltRow = P.getD i dfltRow :=
  countP_take_filter_getD _ dfltRow P i hi (by simp)

/-! ### Stability of the core computations under truncation -/

theorem shiftB_take (g : List PriceRow) {p m : Nat} (k : Nat) (hpm : p < m) :
    shiftB (g.take m) p k = shiftB g p k := by
  unfold shiftB
  split
  · rw [getD_take_of_lt g dfltRow (lt_of_le_of_lt (Nat.sub_le p k) hpm)]
  · rfl

theorem featCore_take (r : PriceRow) (g : List PriceRow) {p m : Nat} (hpm : p < m) :
    featCore r (g.take m) p = featCore r g p := by
  unfold featCore diff1 pctChange
  rw [shiftB_take g 1 hpm, shiftB_take g 5 hpm, getD_take_of_lt g dfltRow hpm]

theorem shiftF_drop (g : List PriceRow) {q p : Nat} (k : Nat) (hqp : q ≤ p) :
    shiftF (g.drop q) (p - q) k = shiftF g p k := by
  unfold shiftF
  rw [List.getElem?_drop]
  congr 1
  omega

theorem getD_drop_sub (g : List PriceRow) (d : PriceRow) {q p : Nat} (hqp : q ≤ p) :
    (g.drop q).getD (p - q) d = g.getD p d := by
  rw [getD_drop_add]
  congr 1
  omega

theorem outCore_drop (r : PriceRow) (g : List PriceRow) {q p : Nat} (hqp : q ≤ p) :
    outCore r (g.drop q) (p - q) = outCore r g p := by
  unfold outCore pctChangeF
  rw [shiftF_drop g 1 hqp, shiftF_drop g 5 hqp, getD_drop_sub g dfltRow hqp]

/-! ### Sorted groups: the dates at or before (strictly after) a position
form a prefix (suffix) of the group -/

theorem sorted_filter_le_take {α : Type} (key : α → Nat) (d : α) (l : List α)
    (hl : l.Pairwise (fun a b => key a ≤ key b)) (p : Nat) (hp : p < l.length) :
    ∃ m, l.filter (fun r => decide (key r ≤ key (l.getD p d))) = l.take m ∧ p < m ∧
      (l.take p).countP (fun r => decide (key r ≤ key (l.getD p d))) = p := by
  set c : α → Bool := fun r => decide (key r ≤ key (l.getD p d)) with hc
  have hmono : ∀ a b, key a ≤ key b → c b = true → c a = true := fun a b hab hcb =>
    decide_eq_true (le_trans hab (of_decide_eq_true hcb))
  have h1 : l.filter c = l.takeWhile c := sorted_filter_eq_takeWhile c hmono l hl
  have h2 : l.takeWhile c = l.take (l.takeWhile c).length := takeWhile_eq_take_length c l
  have hall : ∀ x ∈ l.take (p + 1), c x = true := by
    intro x hx
    obtain ⟨j, hj, hxj⟩ := List.getElem_of_mem hx
    have hjp : j < p + 1 := lt_of_lt_of_le hj (by rw [List.length_take]; exact Nat.min_le_left _ _)
    have hj' : j < l.length := lt_of_lt_of_le hj (by rw [List.length_take]; exact Nat.min_le_right _ _)
    have hxl : l[j] = x := by rw [← hxj, List.getElem_take]
    have hkey : key l[j] ≤ key l[p] := by
      rcases Nat.lt_or_ge j p with hlt | hge
      · exact List.pairwise_iff_getElem.mp hl j p hj' hp hlt
      · have : j = p := Nat.le_antisymm (Nat.lt_succ_iff.mp hjp) hge
        exact this ▸ le_refl _
    rw [hc, ← hxl]
    exact decide_eq_true (by rw [List.getD_eq_getElem l d hp]; exact hkey)
  have hcnt1 : (l.take (p + 1)).countP c = p + 1 :=
    countP_take_all c l (p + 1) (Nat.succ_le_of_lt hp) hall
  have hle : p + 1 ≤ l.countP c := by
    have := List.countP_append c (l.take (p + 1)) (l.drop (p + 1))
    rw [List.take_append_drop] at this
    omega
  have hm : l.countP c = (l.takeWhile c).length := by
    rw [List.countP_eq_length_filter, h1]
  refine ⟨(l.takeWhile c).length, h1.trans h2, by omega, ?_⟩
  refine countP_take_all c l p (le_of_lt hp) (fun x hx => hall x ?_)
  have : l.take p = (l.take (p + 1)).take p := by
    rw [List.take_take, Nat.min_eq_left (Nat.le_succ p)]
  exact mem_take_imp (this ▸ hx)

theorem sorted_filter_ge_drop {α : Type} (key : α → Nat) (d : α) (l : List α)
    (hl : l.Pairwise (fun a b => key a ≤ key b)) (p : Nat) (hp : p < l.length) :
    ∃ q, l.filter (fun r => decide (key (l.getD p d) ≤ key r)) = l.drop q ∧ q ≤ p ∧
      (l.take p).countP (fun r => decide (key (l.getD p d) ≤ key r)) = p - q := by
  set c : α → Bool := fun r => decide (key (l.getD p d) ≤ key r) with hc
  set c' : α → Bool := fun a => ! c a with hc'
  have hmono : ∀ a b, key a ≤ key b → c a = true → c b = true := fun a b hab hca =>
    decide_eq_true (le_trans (of_decide_eq_true hca) hab)
  have hmono' : ∀ a b, key a ≤ key b → c' b = true → c' a = true := by
    intro a b hab hcb
    have hcb' : c b = false := by simpa [hc'] using hcb
    have hca : c a = false := by
      cases hca : c a
      · rfl
      · rw [hmono a b hab hca] at hcb'
        exact Bool.noConfusion hcb'
    simp [hc', hca]
  have h1 : l.filter c = l.dropWhile c' := sorted_filter_eq_dropWhile c hmono l hl
  have h2 : l.dropWhile c' = l.drop (l.takeWhile c').length :=
    dropWhile_eq_drop_length c' l
  set q := (l.takeWhile c').length with hq
  have hcp : c (l.getD p d) = true := by
    rw [hc]
    exact decide_eq_true (le_refl _)
  have hqp : q ≤ p := by
    by_contra hgt
    push_neg at hgt
    have hmem : l.getD p d ∈ l.takeWhile c' := by
      rw [takeWhile_eq_take_length c' l, ← hq]
      have hlen : p < (l.take q).length := by
        rw [List.length_take]
        exact lt_min hgt hp
      have hgd : (l.take q).getD p d = l.getD p d := getD_take_of_lt l d hgt
      exact hgd ▸ getD_mem (l.take q) d hlen
    have := List.mem_takeWhile_imp hmem
    rw [hc', Bool.not_eq_true'] at this
    rw [this] at hcp
    exact Bool.noConfusion hcp
  refine ⟨q, h1.trans h2, hqp, ?_⟩
  have hlen_take : (l.take p).length = p := by
    rw [List.length_take]
    exact Nat.min_eq_left (le_of_lt hp)
  have hsub : (l.take p).Pairwise (fun a b => key a ≤ key b) :=
    hl.sublist (List.take_sublist p l)
  have hcnt' : (l.take p).countP c' = q := by
    rw [List.countP_eq_length_filter,
      sorted_filter_eq_takeWhile c' hmono' (l.take p) hsub,
      take_takeWhile_comm c' l p, List.length_take, ← hq]
    omega
  have hsplit := List.length_eq_countP_add_countP c (l.take p)
  have hcc : (l.take p).countP (fun a => decide (¬c a = true)) = (l.take p).countP c' := by
    refine List.countP_congr (fun x _ => ?_)
    rw [hc']
    cases hcx : c x <;> simp [hcx]
  omega

/-! ### Causal and future cuts of the price table -/

theorem filter_sym_and (P : List PriceRow) (s : String) (c : PriceRow → Bool) :
    P.filter (fun r => decide (r.symbol = s) && c r) =
      (grp P s).filter c := by
  unfold grp
  rw [List.filter_filter]
  exact List.filter_congr (fun x _ => Bool.and_comm _ _)

theorem countP_sym_and (Q : List PriceRow) (s : String) (c : PriceRow → Bool) :
    Q.countP (fun r => decide (r.symbol = s) && c r) =
      (Q.filter (fun r => decide (r.symbol = s))).countP c := by
  rw [List.countP_filter]
  exact List.countP_congr (fun x _ => by rw [Bool.and_comm])

theorem mem_causalCut_symbol {P : List PriceRow} {i : Nat} {r : PriceRow}
    (h : r ∈ causalCut P i) : r.symbol = (P.getD i dfltRow).symbol := by
  unfold causalCut at h
  exact of_decide_eq_true (Bool.and_eq_true_iff.mp (List.mem_filter.mp h).2).1

theorem mem_futureCut_symbol {P : List PriceRow} {i : Nat} {r : PriceRow}
    (h : r ∈ futureCut P i) : r.symbol = (P.getD i dfltRow).symbol := by
  unfold futureCut at h
  exact of_decide_eq_true (Bool.and_eq_true_iff.mp (List.mem_filter.mp h).2).1

/-- Lookahead-safety of the features pipeline: on a table that is datewise
sorted within each symbol, the features row at index `i` is reproduced by
running the very same pipeline on only the causally admissible price rows
(same symbol, date at or before the row's date). -/
theorem featRowAt_causalCut (P : List PriceRow) (hs : SortedSym P) (i : Nat)
    (hi : i < P.length) :
    featRowAt P i = featRowAt (causalCut P i) (cpos P i) ∧
      cpos P i < (causalCut P i).length := by
  obtain ⟨hp, hgd⟩ := grp_getD_gpos P i hi
  have hsg := grp_pairwise_dates P hs (P.getD i dfltRow).symbol
  obtain ⟨m, hfil, hpm, hcnt⟩ :=
    sorted_filter_le_take (fun r => r.date.t) dfltRow
      (grp P (P.getD i dfltRow).symbol) hsg (gpos P i) hp
  rw [hgd] at hfil hcnt
  have hcut : causalCut P i = (grp P (P.getD i dfltRow).symbol).take m := by
    unfold causalCut
    rw [filter_sym_and P (P.getD i dfltRow).symbol _]
    exact hfil
  have hcpos : cpos P i = gpos P i := by
    unfold cpos
    rw [countP_sym_and (P.take i) (P.getD i dfltRow).symbol _, take_filter_eq]
    exact hcnt
  have hlen : cpos P i < (causalCut P i).length := by
    rw [hcut, hcpos, List.length_take]
    exact lt_min hpm hp
  refine ⟨?_, hlen⟩
  have halls : ∀ r ∈ causalCut P i, r.symbol = (P.getD i dfltRow).symbol :=
    fun r hr => mem_causalCut_symbol hr
  rw [featRowAt_of_all halls hlen, hcut, hcpos,
    getD_take_of_lt _ dfltRow hpm, hgd, featCore_take _ _ hpm]
  rfl

/-- Future-dependence of the outcomes pipeline: on a table that is datewise
sorted within each symbol, the outcomes row at index `i` is reproduced by
running the very same pipeline on only the price rows of the same symbol
dated at or after the row's date. -/
theorem outRowAt_futureCut (P : List PriceRow) (hs : SortedSym P) (i : Nat)
    (hi : i < P.length) :
    outRowAt P i = outRowAt (futureCut P i) (fpos P i) ∧
      fpos P i < (futureCut P i).length := by
  obtain ⟨hp, hgd⟩ := grp_getD_gpos P i hi
  have hsg := grp_pairwise_dates P hs (P.getD i dfltRow).symbol
  obtain ⟨q, hfil, hqp, hcnt⟩ :=
    sorted_filter_ge_drop (fun r => r.date.t) dfltRow
      (grp P (P.getD i dfltRow).symbol) hsg (gpos P i) hp
  rw [hgd] at hfil hcnt
  have hcut : futureCut P i = (grp P (P.getD i dfltRow).symbol).drop q := by
    unfold futureCut
    rw [filter_sym_and P (P.getD i dfltRow).symbol _]
    exact hfil
  have hfpos : fpos P i = gpos P i - q := by
    unfold fpos
    rw [countP_sym_and (P.take i) (P.getD i dfltRow).symbol _, take_filter_eq]
    exact hcnt
  have hlen : fpos P i < (futureCut P i).length := by
    rw [hcut, hfpos, List.length_drop]
    omega
  refine ⟨?_, hlen⟩
  have halls : ∀ r ∈ futureCut P i, r.symbol = (P.getD i dfltRow).symbol :=
    fun r hr => mem_futureCut_symbol hr
  rw [outRowAt_of_all halls hlen, hcut, hfpos,
    getD_drop_sub _ dfltRow hqp, hgd, outCore_drop _ _ hqp]
  rfl

/-! ### Sorting lemmas for `get_symbols` -/

theorem keyLe_total (a b : PriceRow) : keyLe a b = true ∨ keyLe b a = true := by
  unfold keyLe
  rcases lt_trichotomy a.date.t b.date.t with h | h | h
  · left; simp [h]
  · rcases le_total a.symbol b.symbol with hs | hs
    · left; simp [h, hs]
    · right; simp [h.symm, hs]
  · right; simp [h]

theorem keyLe_trans {a b c : PriceRow} (h1 : keyLe a b = true)
    (h2 : keyLe b c = true) : keyLe a c = true := by
  simp only [keyLe, Bool.or_eq_true, Bool.and_eq_true, decide_eq_true_eq] at h1 h2 ⊢
  rcases h1 with h1 | ⟨e1, s1⟩ <;> rcases h2 with h2 | ⟨e2, s2⟩
  · left; omega
  · left; omega
  · left; omega
  · exact Or.inr ⟨e1.trans e2, le_trans s1 s2⟩

theorem mem_insertRow {r a : PriceRow} : ∀ {l : List PriceRow},
    a ∈ insertRow r l ↔ a = r ∨ a ∈ l := by
  intro l
  induction l with
  | nil => simp [insertRow]
  | cons x xs ih =>
    unfold insertRow
    split
    · simp [List.mem_cons]
    · rw [List.mem_cons, ih, List.mem_cons]
      tauto

theorem insertRow_perm (r : PriceRow) (l : List PriceRow) :
    List.Perm (insertRow r l) (r :: l) := by
  induction l with
  | nil => exact List.Perm.refl _
  | cons x xs ih =>
    unfold insertRow
    split
    · exact List.Perm.refl _
    · exact (ih.cons x).trans (List.Perm.swap r x xs)

theorem insertRow_pairwise (r : PriceRow) (l : List PriceRow)
    (hl : l.Pairwise (fun a b => keyLe a b = true)) :
    (insertRow r l).Pairwise (fun a b => keyLe a b = true) := by
  induction l with
  | nil => simp [insertRow]
  | cons x xs ih =>
    rcases List.pairwise_cons.mp hl with ⟨hx, hxs⟩
    unfold insertRow
    split
    · next h =>
      refine List.pairwise_cons.mpr ⟨?_, hl⟩
      intro a ha
      rcases List.mem_cons.mp ha with rfl | ha'
      · exact h
      · exact keyLe_trans h (hx a ha')
    · next h =>
      refine List.pairwise_cons.mpr ⟨?_, ih hxs⟩
      intro a ha
      have hxr : keyLe x r = true := by
        rcases keyLe_total r x with ht | ht
        · exact absurd ht h
        · exact ht
      rcases mem_insertRow.mp ha with rfl | ha'
      · exact hxr
      · exact hx a ha'

theorem sortIndex_perm (l : List PriceRow) : List.Perm (sortIndex l) l := by
  induction l with
  | nil => exact List.Perm.refl _
  | cons x xs ih =>
    unfold sortIndex
    exact (insertRow_perm x (sortIndex xs)).trans (ih.cons x)

theorem sortIndex_pairwise (l : List PriceRow) :
    (sortIndex l).Pairwise (fun a b => keyLe a b = true) := by
  induction l with
  | nil => simp [sortIndex]
  | cons x xs ih => exact insertRow_pairwise x (sortIndex xs) ih

theorem foldl_append_flatMap {α β : Type} (f : α → List β) (l : List α)
    (acc : List β) :
    l.foldl (fun out s => out ++ f s) acc = acc ++ l.flatMap f := by
  induction l generalizing acc with
  | nil => simp
  | cons x xs ih => simp [ih, List.flatMap_cons, List.append_assoc]

/-- The price table returned by `get_symbols` satisfies the within-symbol
datewise sortedness that the lookahead-safety theorems assume, because of
its final `sort_index()`. -/
theorem get_symbols_sortedSym
    (web : String → String → Option Date → Option Date → List RawRow)
    (symbols : List String) (data_source : String)
    (begin_date end_date : Option Date) :
    SortedSym (get_symbols web symbols data_source begin_date end_date) := by
  unfold get_symbols
  refine List.Pairwise.imp ?_ (sortIndex_pairwise _)
  intro a b hab _
  simp only [keyLe, Bool.or_eq_true, Bool.and_eq_true, decide_eq_true_eq] at hab
  rcases hab with h | ⟨h, -⟩
  · exact le_of_lt h
  · exact le_of_eq h

/-! ### Missingness of the shifted columns -/

theorem outcomes_getD (P : List PriceRow) (i : Nat) (hi : i < P.length) :
    (outcomes P).getD i dfltOut = outRowAt P i := by
  have hlen : i < (outcomes P).length := by
    unfold outcomes
    rw [List.length_map, List.length_range]
    exact hi
  rw [List.getD_eq_getElem _ _ hlen]
  unfold outcomes
  rw [List.getElem_map, List.getElem_range]

theorem pctChangeF_isSome (g : List PriceRow) (hpos : ∀ r ∈ g, 0 < r.close)
    (p k : Nat) :
    (pctChangeF (fun x => x.close) g p k).isSome = true ↔ p + k < g.length := by
  unfold pctChangeF shiftF
  rcases Nat.lt_or_ge (p + k) g.length with h | h
  · rw [List.getElem?_eq_getElem h]
    have hpos' : 0 < (g.getD (p + k) dfltRow).close := hpos _ (getD_mem g dfltRow h)
    rw [List.getD_eq_getElem g dfltRow h] at hpos'
    simp [divNa, hpos'.ne', h]
  · rw [List.getElem?_eq_none h]
    simp
    omega

theorem open1_isSome (g : List PriceRow) (hpos : ∀ r ∈ g, 0 < r.close) (p : Nat)
    (hp : p < g.length) :
    (((shiftF g p 1).bind (fun r1 => divNa r1.«open» (g.getD p dfltRow).close)).map
        (fun q => q - 1)).isSome = true ↔ p + 1 < g.length := by
  unfold shiftF
  have hden : 0 < (g.getD p dfltRow).close := hpos _ (getD_mem g dfltRow hp)
  rw [List.getD_eq_getElem?_getD] at hden
  rcases Nat.lt_or_ge (p + 1) g.length with h | h
  · rw [List.getElem?_eq_getElem h]
    simp [divNa, hden.ne', h]
  · rw [List.getElem?_eq_none h]
    simp
    omega

theorem pctChange_isSome (g : List PriceRow) (hpos : ∀ r ∈ g, 0 < r.close)
    (p k : Nat) (hp : p < g.length) :
    (pctChange (fun x => x.close) g p k).isSome = true ↔ k ≤ p := by
  unfold pctChange shiftB
  rcases le_or_lt k p with h | h
  · rw [if_pos h]
    have hmem : p - k < g.length := lt_of_le_of_lt (Nat.sub_le p k) hp
    have hpos' : 0 < (g.getD (p - k) dfltRow).close := hpos _ (getD_mem g dfltRow hmem)
    rw [List.getD_eq_getElem?_getD] at hpos'
    simp [divNa, hpos'.ne', h]
  · rw [if_neg (Nat.not_le_of_lt h)]
    simp
    omega

theorem vcr_isSome (g : List PriceRow) (hpos : ∀ r ∈ g, 0 < r.volume) (p : Nat)
    (hp : p < g.length) :
    (optDiv (diff1 (fun x => x.volume) g p)
        ((shiftB g p 1).map (fun x => x.volume))).isSome = true ↔ 1 ≤ p := by
  unfold diff1 shiftB
  rcases le_or_lt 1 p with h | h
  · rw [if_pos h]
    have hmem : p - 1 < g.length := lt_of_le_of_lt (Nat.sub_le p 1) hp
    have hpos' : 0 < (g.getD (p - 1) dfltRow).volume := hpos _ (getD_mem g dfltRow hmem)
    rw [List.getD_eq_getElem?_getD] at hpos'
    simp [optDiv, divNa, hpos'.ne', h]
  · rw [if_neg (Nat.not_le_of_lt h)]
    simp [optDiv]
    omega

theorem intraday_isSome (g : List PriceRow) (hpos : ∀ r ∈ g, 0 < r.«open»)
    (p : Nat) (hp : p < g.length) :
    (divNa ((g.getD p dfltRow).close - (g.getD p dfltRow).«open»)
        ((g.getD p dfltRow).«open»)).isSome = true := by
  have hpos' : 0 < (g.getD p dfltRow).«open» := hpos _ (getD_mem g dfltRow hp)
  rw [List.getD_eq_getElem?_getD] at hpos'
  simp [divNa, hpos'.ne']

/-! ### Per-symbol projection of the derived tables -/

theorem range_filter_countP {α : Type} (q : α → Bool) (d : α) (l : List α) :
    ((List.range l.length).filter (fun i => q (l.getD i d))).map
        (fun i => (l.take i).countP q) = List.range ((l.filter q).length) := by
  induction l with
  | nil => simp
  | cons x xs ih =>
    have hfc : (List.map Nat.succ (List.range xs.length)).filter
        (fun i => q ((x :: xs).getD i d)) =
        List.map Nat.succ ((List.range xs.length).filter (fun i => q (xs.getD i d))) := by
      rw [List.filter_map]
      rfl
    cases hx : q x
    · rw [List.length_cons, List.range_succ_eq_map, List.filter_cons,
        if_neg (by simp [hx]), hfc, List.map_map, List.filter_cons,
        if_neg (by simp [hx])]
      have hcomp : ((fun i => ((x :: xs).take i).countP q) ∘ Nat.succ) =
          fun i => (xs.take i).countP q := by
        funext i
        simp only [Function.comp_apply, List.take_succ_cons, List.countP_cons, hx]
        simp
      rw [hcomp, ih]
    · rw [List.length_cons, List.range_succ_eq_map, List.filter_cons,
        if_pos (by simp [hx]), hfc, List.map_cons, List.map_map, List.filter_cons,
        if_pos (by simp [hx])]
      have hcomp : ((fun i => ((x :: xs).take i).countP q) ∘ Nat.succ) =
          fun i => (xs.take i).countP q + 1 := by
        funext i
        simp only [Function.comp_apply, List.take_succ_cons, List.countP_cons, hx]
        simp
      rw [hcomp, List.length_cons, List.range_succ_eq_map, ← ih]
      have h0 : ((x :: xs).take 0).countP q = 0 := rfl
      rw [h0, List.map_map]
      rfl

theorem outcomes_filter_sym (P : List PriceRow) (s : String) :
    (outcomes P).filter (fun o => decide (o.symbol = s)) = outcomes (grp P s) := by
  unfold outcomes
  rw [List.filter_map]
  rw [show ((fun o : OutcomeRow => decide (o.symbol = s)) ∘ outRowAt P) =
      (fun i => decide ((P.getD i dfltRow).symbol = s)) from rfl]
  rw [show (grp P s).length = (P.filter (fun r => decide (r.symbol = s))).length
      from rfl]
  rw [← range_filter_countP (fun r => decide (r.symbol = s)) dfltRow P, List.map_map]
  refine List.map_congr_left (fun i hi => ?_)
  obtain ⟨hmem, hq⟩ := List.mem_filter.mp hi
  have hiP : i < P.length := List.mem_range.mp hmem
  have hsym : (P.getD i dfltRow).symbol = s := of_decide_eq_true hq
  obtain ⟨hp, hgd⟩ := grp_getD_gpos P i hiP
  rw [hsym] at hp hgd
  have hgpos : (P.take i).countP (fun r => decide (r.symbol = s)) = gpos P i := by
    unfold gpos
    rw [hsym]
  show outRowAt P i =
    outRowAt (grp P s) ((P.take i).countP (fun r => decide (r.symbol = s)))
  rw [hgpos, outRowAt_of_all (fun r hr => mem_grp_symbol hr) hp, hgd]
  unfold outRowAt
  rw [hsym]

theorem featuresRaw_filter_sym (P : List PriceRow) (s : String) :
    (featuresRaw P).filter (fun f => decide (f.symbol = s)) = featuresRaw (grp P s) := by
  unfold featuresRaw
  rw [List.filter_map]
  rw [show ((fun f : FeatureRow => decide (f.symbol = s)) ∘ featRowAt P) =
      (fun i => decide ((P.getD i dfltRow).symbol = s)) from rfl]
  rw [show (grp P s).length = (P.filter (fun r => decide (r.symbol = s))).length
      from rfl]
  rw [← range_filter_countP (fun r => decide (r.symbol = s)) dfltRow P, List.map_map]
  refine List.map_congr_left (fun i hi => ?_)
  obtain ⟨hmem, hq⟩ := List.mem_filter.mp hi
  have hiP : i < P.length := List.mem_range.mp hmem
  have hsym : (P.getD i dfltRow).symbol = s := of_decide_eq_true hq
  obtain ⟨hp, hgd⟩ := grp_getD_gpos P i hiP
  rw [hsym] at hp hgd
  have hgpos : (P.take i).countP (fun r => decide (r.symbol = s)) = gpos P i := by
    unfold gpos
    rw [hsym]
  show featRowAt P i =
    featRowAt (grp P s) ((P.take i).countP (fun r => decide (r.symbol = s)))
  rw [hgpos, featRowAt_of_all (fun r hr => mem_grp_symbol hr) hp, hgd]
  unfold featRowAt
  rw [hsym]

theorem features_filter_sym (P : List PriceRow) (s : String) :
    (features P).filter (fun f => decide (f.symbol = s)) = features (grp P s) := by
  unfold features
  rw [← featuresRaw_filter_sym, List.filter_filter, List.filter_filter]
  exact List.filter_congr (fun x _ => Bool.and_comm _ _)

/-! ### Claim theorems -/

/-- C3.  The training-pair construction performed by the code — left join
`X.join(y)`, then `dropna()`, then splitting back into `X` and `y` — is
equal, as a function of the two input tables, to the spec's reference
definition: inner join on the composite (date, symbol) key followed by
dropping rows with any missing value. -/
theorem join_dropna_refines_inner_join (X : List FeatureRow) (y : List YEntry) :
    dropnaXy (joinLeft X y) = dropnaXy (joinInnerSpec X y) ∧
      trainPair X y =
        ((dropnaXy (joinInnerSpec X y)).map (fun r => r.x),
          (dropnaXy (joinInnerSpec X y)).map (fun r => r.yval)) := by
  have hjoin : dropnaXy (joinLeft X y) = dropnaXy (joinInnerSpec X y) := by
    unfold dropnaXy joinLeft joinInnerSpec
    rw [List.filter_flatMap, List.filter_flatMap]
    congr 1
    funext f
    rcases hm : yMatches y f with _ | ⟨e, es⟩
    · simp
    · simp [hm]
  exact ⟨hjoin, by simp only [trainPair, hjoin]⟩

/-- C5.  `get_symbols` returns a single table that is a permutation of the
concatenation, over the requested symbols in order, of each symbol's
fetched OHLCV rows tagged with that symbol; the result is sorted by the
composite (date, symbol) key, and every row carries the symbol it was
fetched for. -/
theorem get_symbols_spec
    (web : String → String → Option Date → Option Date → List RawRow)
    (symbols : List String) (data_source : String)
    (begin_date end_date : Option Date) :
    List.Perm (get_symbols web symbols data_source begin_date end_date)
        (symbols.flatMap (fun s =>
          (web s data_source begin_date end_date).map (toPriceRow s))) ∧
      (get_symbols web symbols data_source begin_date end_date).Pairwise
        (fun a b => keyLe a b = true) ∧
      ∀ r ∈ get_symbols web symbols data_source begin_date end_date,
        ∃ s ∈ symbols, ∃ raw ∈ web s data_source begin_date end_date,
          r = toPriceRow s raw := by
  have hfold : get_symbols web symbols data_source begin_date end_date =
      sortIndex (symbols.flatMap (fun s =>
        (web s data_source begin_date end_date).map (toPriceRow s))) := by
    unfold get_symbols
    rw [foldl_append_flatMap]
    rfl
  have hperm := hfold ▸ sortIndex_perm _
  refine ⟨hperm, hfold ▸ sortIndex_pairwise _, ?_⟩
  intro r hr
  have hr' := hperm.mem_iff.mp hr
  obtain ⟨s, hs, hrm⟩ := List.mem_flatMap.mp hr'
  obtain ⟨raw, hraw, hrw⟩ := List.mem_map.mp hrm
  exact ⟨s, hs, raw, hraw, hrw.symm⟩

/-- C5 witness: on a concrete reader and symbol list, the first returned
row is a tagged row fetched for a symbol of the list. -/
theorem get_symbols_spec_witness :
    ∃ s ∈ ["A", "B"],
      ∃ raw ∈ (fun _ _ _ _ => [(⟨⟨3, 3, 4⟩, 7, 8, 6, 7, 50⟩ : RawRow)])
          s "quandl" (none : Option Date) (none : Option Date),
        (get_symbols (fun _ _ _ _ => [⟨⟨3, 3, 4⟩, 7, 8, 6, 7, 50⟩])
            ["A", "B"] "quandl" none none).getD 0 dfltRow = toPriceRow s raw :=
  (get_symbols_spec (fun _ _ _ _ => [⟨⟨3, 3, 4⟩, 7, 8, 6, 7, 50⟩])
      ["A", "B"] "quandl" none none).2.2 _ (by with_unfolding_all decide)

/-- C6.  Missing data is handled by omission, not by error: every row of
the published features table is fully populated (the `dropna` removed all
incomplete rows), and the outcomes step keeps one row per price row — no
row is rejected and no error value is produced anywhere in the pipeline,
whose steps are total functions. -/
theorem missing_handled_by_omission (P : List PriceRow) :
    (∀ f ∈ features P, f.volume_change_ratio.isSome = true ∧
        f.momentum_5_day.isSome = true ∧ f.intraday_chg.isSome = true) ∧
      (outcomes P).length = P.length := by
  constructor
  · intro f hf
    have hc : completeF f = true := (List.mem_filter.mp hf).2
    unfold completeF at hc
    rcases Bool.and_eq_true_iff.mp hc with ⟨h12, h3⟩
    rcases Bool.and_eq_true_iff.mp h12 with ⟨h1, h2⟩
    exact ⟨h1, h2, h3⟩
  · unfold outcomes
    rw [List.length_map, List.length_range]

/-- C6 witness: a concrete retained features row is fully populated. -/
theorem missing_handled_by_omission_witness :
    (features Pw).getD 0 dfltFeat ∈ features Pw ∧
      ((features Pw).getD 0 dfltFeat).volume_change_ratio.isSome = true ∧
      ((features Pw).getD 0 dfltFeat).momentum_5_day.isSome = true ∧
      ((features Pw).getD 0 dfltFeat).intraday_chg.isSome = true :=
  ⟨by with_unfolding_all decide, (missing_handled_by_omission Pw).1 _ (by with_unfolding_all decide)⟩

/-- C7.  The derivation cells leave the price table unchanged and recompute
the features and outcomes tables wholesale from the prices: the resulting
state is a function of the prices alone, independent of any previously
derived tables. -/
theorem derivation_preserves_prices (st st' : NotebookState)
    (h : st.prices = st'.prices) :
    (runOutcomesCell (runFeaturesCell st)).prices = st.prices ∧
      (runOutcomesCell (runFeaturesCell st)).features = features st.prices ∧
      (runOutcomesCell (runFeaturesCell st)).outcomes = outcomes st.prices ∧
      runOutcomesCell (runFeaturesCell st) = runOutcomesCell (runFeaturesCell st') := by
  obtain ⟨p, f, o⟩ := st
  obtain ⟨p', f', o'⟩ := st'
  simp only [NotebookState.mk.injEq] at h ⊢
  simp [runFeaturesCell, runOutcomesCell, h]

/-- C7 witness: two concrete states sharing the price table but disagreeing
on every derived table produce identical derived states. -/
theorem derivation_preserves_prices_witness :
    (runOutcomesCell (runFeaturesCell ⟨Pw, [], []⟩)).prices = Pw ∧
      runOutcomesCell (runFeaturesCell ⟨Pw, [], []⟩) =
        runOutcomesCell (runFeaturesCell ⟨Pw, [dfltFeat], [dfltOut]⟩) :=
  ⟨(derivation_preserves_prices ⟨Pw, [], []⟩ ⟨Pw, [dfltFeat], [dfltOut]⟩ rfl).1,
    (derivation_preserves_prices ⟨Pw, [], []⟩ ⟨Pw, [dfltFeat], [dfltOut]⟩ rfl).2.2.2⟩

/-- C8.  Wrapping `model.predict(X)` with index `X.index` yields a series
whose keys are exactly the composite (date, symbol) keys of `X`, in the
same order and number, whenever the model returns one prediction per row
(the scikit-learn `predict` contract). -/
theorem predSeries_same_index (predict : List FeatureRow → List Rat)
    (X : List FeatureRow) (h : (predict X).length = X.length) :
    ∃ srs, predSeries predict X = some srs ∧
      srs.map Prod.fst = X.map (fun f => (f.date, f.symbol)) ∧
      srs.length = X.length := by
  refine ⟨(X.map (fun f => (f.date, f.symbol))).zip (predict X), ?_, ?_, ?_⟩
  · unfold predSeries
    rw [if_pos h]
  · exact List.map_fst_zip _ _ (by rw [List.length_map, h])
  · rw [List.length_zip, List.length_map, h, Nat.min_self]

/-- C9.  Per-symbol noninterference of the derived tables: the feature and
outcome computations group the price data by symbol, so any two price
tables that agree on all rows of a symbol `s` (and may differ arbitrarily
on other symbols) produce identical `s`-keyed rows in both the features
table and the outcomes table — no shift, diff, or percent change carries a
value across a symbol boundary. -/
theorem symbol_noninterference (P Q : List PriceRow) (s : String)
    (h : grp P s = grp Q s) :
    (features P).filter (fun f => decide (f.symbol = s)) =
        (features Q).filter (fun f => decide (f.symbol = s)) ∧
      (outcomes P).filter (fun o => decide (o.symbol = s)) =
        (outcomes Q).filter (fun o => decide (o.symbol = s)) := by
  rw [features_filter_sym, features_filter_sym, outcomes_filter_sym,
    outcomes_filter_sym, h]
  exact ⟨rfl, rfl⟩

/-- C9 witness: the concrete tables `P2w` and `Q2w` differ on symbol B but
agree on symbol A, and their A-keyed feature and outcome rows coincide. -/
theorem symbol_noninterference_witness :
    grp P2w "A" = grp Q2w "A" ∧
      (features P2w).filter (fun f => decide (f.symbol = "A")) =
        (features Q2w).filter (fun f => decide (f.symbol = "A")) ∧
      (outcomes P2w).filter (fun o => decide (o.symbol = "A")) =
        (outcomes Q2w).filter (fun o => decide (o.symbol = "A")) :=
  ⟨by with_unfolding_all decide,
    symbol_noninterference P2w Q2w "A" (by with_unfolding_all decide)⟩

/-- C1.  Lookahead safety of the training matrix: on a datewise-sorted
price table, every feature row retained after joining the features table
with an outcome column and dropping incomplete rows is a features-pipeline
row of the table, and its five feature values are reproduced by running
the very same pipeline on only the price rows of the same symbol dated at
or before the row's date — no price data timestamped after the row's date
enters any feature value. -/
theorem training_features_lookahead_safe (P : List PriceRow) (hs : SortedSym P)
    (y : List YEntry) :
    ∀ fx ∈ (trainPair (features P) y).1, ∃ i : Nat, i < P.length ∧
      fx = featRowAt P i ∧
      featRowAt P i = featRowAt (causalCut P i) (cpos P i) ∧
      cpos P i < (causalCut P i).length := by
  intro fx hfx
  unfold trainPair dropnaXy joinLeft at hfx
  obtain ⟨r, hr, hrx⟩ := List.mem_map.mp hfx
  have hrj := (List.mem_filter.mp hr).1
  obtain ⟨f, hf, hrf⟩ := List.mem_flatMap.mp hrj
  have hxf : r.x = f := by
    by_cases hemp : (yMatches y f).isEmpty
    · rw [if_pos hemp] at hrf
      rw [List.mem_singleton.mp hrf]
    · rw [if_neg hemp] at hrf
      obtain ⟨e, he, hre⟩ := List.mem_map.mp hrf
      rw [← hre]
  unfold features featuresRaw at hf
  have hfeat := (List.mem_filter.mp hf).1
  obtain ⟨i, hirange, hfi⟩ := List.mem_map.mp hfeat
  have hi : i < P.length := List.mem_range.mp hirange
  obtain ⟨hcuteq, hlt⟩ := featRowAt_causalCut P hs i hi
  exact ⟨i, hi, by rw [← hrx, hxf, ← hfi], hcuteq, hlt⟩

/-- C1 witness: the first row of the concrete training matrix built from
`Pw` and the `close_1` outcome column is causally reproducible. -/
theorem training_features_lookahead_safe_witness :
    SortedSym Pw ∧
      (trainPair (features Pw) (ycolClose1 Pw)).1.getD 0 dfltFeat ∈
        (trainPair (features Pw) (ycolClose1 Pw)).1 ∧
      (∃ i : Nat, i < Pw.length ∧
        (trainPair (features Pw) (ycolClose1 Pw)).1.getD 0 dfltFeat = featRowAt Pw i ∧
        featRowAt Pw i = featRowAt (causalCut Pw i) (cpos Pw i) ∧
        cpos Pw i < (causalCut Pw i).length) :=
  ⟨by with_unfolding_all decide, by with_unfolding_all decide,
    training_features_lookahead_safe Pw (by with_unfolding_all decide)
      (ycolClose1 Pw) _ (by with_unfolding_all decide)⟩

/-- C2 counterexample: the outcome columns use the row's own closing price,
which is timestamped at — not strictly after — the row's date.  `Pc` and
`Pc'` agree on every price row dated strictly after date 0 and differ only
in the close of the date-0 row, yet the non-missing `open_1` outcome of the
date-0 row differs between the two tables. -/
theorem outcome_uses_current_close_counterexample :
    Pc.filter (fun r => decide (0 < r.date.t)) =
        Pc'.filter (fun r => decide (0 < r.date.t)) ∧
      ((outcomes Pc).getD 0 dfltOut).date = ((outcomes Pc').getD 0 dfltOut).date ∧
      ((outcomes Pc).getD 0 dfltOut).symbol = ((outcomes Pc').getD 0 dfltOut).symbol ∧
      ((outcomes Pc).getD 0 dfltOut).open_1.isSome = true ∧
      ((outcomes Pc').getD 0 dfltOut).open_1.isSome = true ∧
      ((outcomes Pc).getD 0 dfltOut).open_1 ≠ ((outcomes Pc').getD 0 dfltOut).open_1 := by
  with_unfolding_all decide

/-- C2 (amended).  On a datewise-sorted price table, every outcomes-table
row is reproduced by running the outcomes pipeline on only the price rows
of the same symbol dated at or after the row's date: each outcome value
derives solely from the row's own prices and strictly-future prices of the
same symbol (so it is unchanged whenever price data strictly before the
row's date changes). -/
theorem outcome_future_dependence (P : List PriceRow) (hs : SortedSym P) (i : Nat)
    (hi : i < P.length) :
    (outcomes P).getD i dfltOut = outRowAt (futureCut P i) (fpos P i) ∧
      fpos P i < (futureCut P i).length ∧
      ∀ r ∈ futureCut P i, r.symbol = (P.getD i dfltRow).symbol ∧
        (P.getD i dfltRow).date.t ≤ r.date.t := by
  obtain ⟨h1, h2⟩ := outRowAt_futureCut P hs i hi
  refine ⟨?_, h2, ?_⟩
  · rw [outcomes_getD P i hi, h1]
  · intro r hr
    unfold futureCut at hr
    obtain ⟨-, hcond⟩ := List.mem_filter.mp hr
    rcases Bool.and_eq_true_iff.mp hcond with ⟨ha, hb⟩
    exact ⟨of_decide_eq_true ha, of_decide_eq_true hb⟩

/-- C2 (amended) witness: the first outcomes row of the concrete table `Pw`
is reproduced from the same-symbol rows dated at or after its date. -/
theorem outcome_future_dependence_witness :
    SortedSym Pw ∧ 0 < Pw.length ∧
      (outcomes Pw).getD 0 dfltOut = outRowAt (futureCut Pw 0) (fpos Pw 0) ∧
      fpos Pw 0 < (futureCut Pw 0).length :=
  ⟨by with_unfolding_all decide, by with_unfolding_all decide,
    (outcome_future_dependence Pw (by with_unfolding_all decide) 0
        (by with_unfolding_all decide)).1,
    (outcome_future_dependence Pw (by with_unfolding_all decide) 0
        (by with_unfolding_all decide)).2.1⟩

/-- C4.  On a price table with positive closes, the outcomes table's
missing values sit exactly at the end of each symbol's history: for the
row at index `i`, sitting at position `gpos P i` of its `n`-row symbol
group, `open_1` and `close_1` (one-period forward shifts) are present iff a
next group row exists, and `close_5` (a five-period forward shift) is
present iff a row five periods ahead exists; in particular all three are
missing on the group's last row and `close_5` on its last five rows. -/
theorem outcome_missing_exactly_at_end (P : List PriceRow)
    (hpos : ∀ r ∈ P, 0 < r.close) (i : Nat) (hi : i < P.length) :
    (((outcomes P).getD i dfltOut).open_1.isSome = true ↔
        gpos P i + 1 < (grp P (P.getD i dfltRow).symbol).length) ∧
      (((outcomes P).getD i dfltOut).close_1.isSome = true ↔
        gpos P i + 1 < (grp P (P.getD i dfltRow).symbol).length) ∧
      (((outcomes P).getD i dfltOut).close_5.isSome = true ↔
        gpos P i + 5 < (grp P (P.getD i dfltRow).symbol).length) := by
  obtain ⟨hp, hgd⟩ := grp_getD_gpos P i hi
  have hposg : ∀ r ∈ grp P (P.getD i dfltRow).symbol, 0 < r.close := fun r hr =>
    hpos r (List.Sublist.mem hr (List.filter_sublist P))
  rw [outcomes_getD P i hi]
  unfold outRowAt outCore
  exact ⟨open1_isSome _ hposg _ hp, pctChangeF_isSome _ hposg _ _,
    pctChangeF_isSome _ hposg _ _⟩

/-- C4 witness: on the concrete table `Pw`, the last row (index 6, group
position 6 of 7) has all three outcomes missing, as the theorem
instantiates. -/
theorem outcome_missing_exactly_at_end_witness :
    (∀ r ∈ Pw, 0 < r.close) ∧ 6 < Pw.length ∧
      ((((outcomes Pw).getD 6 dfltOut).open_1.isSome = true ↔
          gpos Pw 6 + 1 < (grp Pw (Pw.getD 6 dfltRow).symbol).length) ∧
        (((outcomes Pw).getD 6 dfltOut).close_1.isSome = true ↔
          gpos Pw 6 + 1 < (grp Pw (Pw.getD 6 dfltRow).symbol).length) ∧
        (((outcomes Pw).getD 6 dfltOut).close_5.isSome = true ↔
          gpos Pw 6 + 5 < (grp Pw (Pw.getD 6 dfltRow).symbol).length)) :=
  ⟨by with_unfolding_all decide, by with_unfolding_all decide,
    outcome_missing_exactly_at_end Pw (by with_unfolding_all decide) 6
      (by with_unfolding_all decide)⟩

/-- C10.  On a price table with positive opens, closes and volumes, a
features row survives `dropna` exactly when its symbol has at least five
earlier price rows: `momentum_5_day` (a five-period percent change) is
missing precisely on each symbol's first five rows, `volume_change_ratio`
precisely on its first row, and completeness of the row is equivalent to
group position at least five. -/
theorem features_survive_iff_five_prior (P : List PriceRow)
    (hpos : ∀ r ∈ P, 0 < r.«open» ∧ 0 < r.close ∧ 0 < r.volume) (i : Nat)
    (hi : i < P.length) :
    (completeF (featRowAt P i) = true ↔ 5 ≤ gpos P i) ∧
      ((featRowAt P i).momentum_5_day = none ↔ gpos P i < 5) ∧
      ((featRowAt P i).volume_change_ratio = none ↔ gpos P i = 0) := by
  obtain ⟨hp, hgd⟩ := grp_getD_gpos P i hi
  have hsub : ∀ r ∈ grp P (P.getD i dfltRow).symbol, r ∈ P := fun r hr =>
    List.Sublist.mem hr (List.filter_sublist P)
  have hopen : ∀ r ∈ grp P (P.getD i dfltRow).symbol, 0 < r.«open» := fun r hr =>
    (hpos r (hsub r hr)).1
  have hclose : ∀ r ∈ grp P (P.getD i dfltRow).symbol, 0 < r.close := fun r hr =>
    (hpos r (hsub r hr)).2.1
  have hvol : ∀ r ∈ grp P (P.getD i dfltRow).symbol, 0 < r.volume := fun r hr =>
    (hpos r (hsub r hr)).2.2
  have hvcr := vcr_isSome _ hvol _ hp
  have hmom := pctChange_isSome _ hclose (gpos P i) 5 hp
  have hintra := intraday_isSome _ hopen _ hp
  unfold featRowAt featCore completeF
  dsimp only
  refine ⟨?_, ?_, ?_⟩
  · rw [Bool.and_eq_true, Bool.and_eq_true]
    constructor
    · rintro ⟨⟨h1, h2⟩, -⟩
      have := hmom.mp h2
      omega
    · intro h5
      exact ⟨⟨hvcr.mpr (by omega), hmom.mpr h5⟩, hintra⟩
  · rw [← Option.not_isSome_iff_eq_none]
    constructor
    · intro hnone
      by_contra hc
      exact hnone (hmom.mpr (by omega))
    · intro hlt hsome
      have := hmom.mp hsome
      omega
  · rw [← Option.not_isSome_iff_eq_none]
    constructor
    · intro hnone
      by_contra hc
      exact hnone (hvcr.mpr (by omega))
    · intro h0 hsome
      have := hvcr.mp hsome
      omega

/-- C10 witness: on the concrete table `Pw`, the row at index 5 (five
earlier rows of its symbol) is complete, as the theorem instantiates. -/
theorem features_survive_iff_five_prior_witness :
    (∀ r ∈ Pw, 0 < r.«open» ∧ 0 < r.close ∧ 0 < r.volume) ∧ 5 < Pw.length ∧
      ((completeF (featRowAt Pw 5) = true ↔ 5 ≤ gpos Pw 5) ∧
        ((featRowAt Pw 5).momentum_5_day = none ↔ gpos Pw 5 < 5) ∧
        ((featRowAt Pw 5).volume_change_ratio = none ↔ gpos Pw 5 = 0)) :=
  ⟨by with_unfolding_all decide, by with_unfolding_all decide,
    features_survive_iff_five_prior Pw (by with_unfolding_all decide) 5
      (by with_unfolding_all decide)⟩

/-- C8 witness: a concrete length-preserving model yields a series indexed
exactly by the feature matrix's keys. -/
theorem predSeries_same_index_witness :
    ((fun l : List FeatureRow => l.map (fun _ => (0 : Rat))) (features Pw)).length =
        (features Pw).length ∧
      ∃ srs, predSeries (fun l => l.map (fun _ => (0 : Rat))) (features Pw) = some srs ∧
        srs.map Prod.fst = (features Pw).map (fun f => (f.date, f.symbol)) ∧
        srs.length = (features Pw).length :=
  ⟨by rw [List.length_map],
    predSeries_same_index (fun l => l.map (fun _ => (0 : Rat))) (features Pw)
      (by rw [List.length_map])⟩

end InvestML
